import Mathlib

/-!
# Verification of the layers-explorer core (archive parser + bounded disk cache)

Shallow embedding of the repository's two core modules:

* `explorer.ts` (`Explorer.getLayersFromImageArchive`, `isWhiteout`,
  `isOpaqueWhiteout`, `getHiddenFile`): parsing of an extracted image
  archive into layers, whiteout classification, and reverse history
  alignment.
* `cache.ts` (`Cache.get`, `Cache.save`, `Cache.limitSize`,
  `Cache.clearImageCache`, `Cache.deleteCacheFile`,
  `Cache.getSortedFilesByAtime`): the size-bounded compressed disk cache.

External collaborators (node:path, node:zlib, JSON, the filesystem, the
`ImageFilesProvider` callbacks) are modelled explicitly below; each model
carries a comment naming the library function it stands for.
-/

deriving instance DecidableEq for Except

namespace LayersExplorer

/-! ## Model of node:path (posix)

The explorer calls `path.basename`, `path.dirname` and `path.join` from
`node:path`.  The definitions below are char-level transcriptions of the
algorithms in Node's `lib/path.js` (posix variants): `basename` skips
trailing separators and returns the last component; `dirname` scans from
the end (ignoring position 0) for the separator before the last
component; `join` concatenates the non-empty arguments with `/` and
normalizes the result (dropping empty and `.` components and resolving
`..`).
-/

/-- Node `path.posix.basename`: skip trailing `/`, then take the final
run of non-`/` characters. -/
def basenameChars (cs : List Char) : List Char :=
  (((cs.reverse).dropWhile (· = '/')).takeWhile (· ≠ '/')).reverse

def nodeBasename (s : String) : String := ⟨basenameChars s.data⟩

/-- Node `path.posix.dirname`: everything before the separator that
precedes the last component; the scan never looks at position 0, `.` is
returned when there is no directory part, `/` (or `//`) for roots. -/
def dirnameChars (cs : List Char) : List Char :=
  match cs with
  | [] => ['.']
  | c :: rest =>
    let hasRoot := c = '/'
    let r2 := ((rest.reverse).dropWhile (· = '/')).dropWhile (· ≠ '/')
    if r2.isEmpty then (if hasRoot then ['/'] else ['.'])
    else if hasRoot ∧ r2.length = 1 then ['/', '/']
    else cs.take r2.length

def nodeDirname (s : String) : String := ⟨dirnameChars s.data⟩

/-- Components of a char string split at `/` (as Node's normalizeString
scans maximal separator-free runs; empty runs are produced by repeated
separators). -/
def splitSlash : List Char → List (List Char)
  | [] => [[]]
  | c :: rest =>
    if c = '/' then [] :: splitSlash rest
    else
      match splitSlash rest with
      | s :: ss => (c :: s) :: ss
      | [] => [[c]]

/-- Joining components with `/` (inverse of `splitSlash` on
separator-free components). -/
def joinSegsChars : List (List Char) → List Char
  | [] => []
  | [s] => s
  | s :: rest => s ++ '/' :: joinSegsChars rest

/-- One step of Node's `normalizeString`: skip empty and `.` components,
resolve `..` against the accumulated stack (popping unless the top is
already `..`; above-root `..` is kept only when `allowAboveRoot`). -/
def normStep (allowAboveRoot : Bool) (acc : List (List Char)) (comp : List Char) :
    List (List Char) :=
  if comp = [] ∨ comp = ['.'] then acc
  else if comp = ['.', '.'] then
    if acc ≠ [] ∧ acc.getLast? ≠ some ['.', '.'] then acc.dropLast
    else if allowAboveRoot then acc ++ [comp] else acc
  else acc ++ [comp]

/-- Node `path.posix.normalize`. -/
def normalizeChars (cs : List Char) : List Char :=
  if cs = [] then ['.']
  else
    let isAbs := cs.head? = some '/'
    let trailing := cs.getLast? = some '/'
    let comps := (splitSlash cs).foldl (normStep !isAbs) []
    let body := joinSegsChars comps
    if body = [] then
      if isAbs then ['/'] else if trailing then ['.', '/'] else ['.']
    else
      (if isAbs then ['/'] else []) ++ body ++ (if trailing then ['/'] else [])

def nodeNormalize (s : String) : String := ⟨normalizeChars s.data⟩

/-- Node `path.posix.join`: the non-empty arguments joined with `/`,
then normalized; `.` when all arguments are empty. -/
def nodeJoin (a b : String) : String :=
  let parts := [a, b].filter (· ≠ "")
  if parts = [] then "."
  else nodeNormalize ⟨joinSegsChars (parts.map String.data)⟩

/-- A normal path segment: non-empty, contains no separator, and is
neither of the special components `.` and `..`.  Slash-separated lists
of such segments are the well-formed relative paths that appear as
archive entry names. -/
def goodSegChars (s : List Char) : Prop :=
  s ≠ [] ∧ '/' ∉ s ∧ s ≠ ['.'] ∧ s ≠ ['.', '.']

instance (s : List Char) : Decidable (goodSegChars s) := by
  unfold goodSegChars
  infer_instance

/-! ## Whiteout classifier (`explorer.ts`) -/

/-- `WHITEOUT_MARKER = '.wh.'` as characters. -/
def whiteoutMarker : List Char := ['.', 'w', 'h', '.']

/-- `OPAQUE_WHITEOUT_MARKER = '.wh..wh..opq'` as characters. -/
def opaqueMarker : List Char :=
  ['.', 'w', 'h', '.', '.', 'w', 'h', '.', '.', 'o', 'p', 'q']

/-- `Explorer.isWhiteout`: the basename starts with `.wh.`
(`basename.startsWith(WHITEOUT_MARKER)`). -/
def isWhiteout (p : String) : Bool :=
  whiteoutMarker.isPrefixOf (basenameChars p.data)

/-- `Explorer.isOpaqueWhiteout`: the basename is exactly `.wh..wh..opq`. -/
def isOpaqueWhiteout (p : String) : Bool :=
  basenameChars p.data = opaqueMarker

/-- `Explorer.getHiddenFile`: for a whiteout, join the dirname with the
basename minus the 4-character `.wh.` prefix
(`basename.substring(WHITEOUT_MARKER.length)`); the non-whiteout case
throws in the source and is `none` here. -/
def getHiddenFile (p : String) : Option String :=
  if isWhiteout p then
    some (nodeJoin (nodeDirname p) ⟨(basenameChars p.data).drop 4⟩)
  else none

/-! ## Layer archive parser (`explorer.ts`) -/

/-- One record of the image configuration's `history` list; both fields
are optional in the JSON document (`created_by?`, `empty_layer?`). -/
structure History where
  created_by : Option String
  empty_layer : Option Bool
deriving DecidableEq, Repr

/-- JS truthiness of `histo.empty_layer` (`undefined` and `false` are
falsy). -/
def History.isEmptyLayer (h : History) : Bool := h.empty_layer.getD false

/-- One entry of a layer tar archive as delivered by `tar.list`'s
`onentry` callback: `entry.path`, `entry.type` (a string such as
`'Directory'` or `'SymbolicLink'`), `entry.mode` (optional),
`entry.size`, `entry.linkpath` (optional). -/
structure TarEntry where
  path : String
  entryType : String
  mode : Option Nat
  size : Nat
  linkpath : Option String
deriving DecidableEq, Repr

/-- A classified filesystem entry of a layer.  The source pushes these
into the layer through the `ImageFilesProvider` callbacks `addFile`,
`addDirectory`, `addSymlink`, `addWhiteout`, `addOpaqueWhiteout`
(external `@podman-desktop/api` collaborator, modelled per its
interface: each call appends one entry of the corresponding kind). -/
inductive FsEntry where
  | file (path : String) (mode : Nat) (size : Nat)
  | directory (path : String) (mode : Nat)
  | symlink (path : String) (mode : Nat) (linkPath : String)
  | whiteout (hiddenPath : String)
  | opaqueWhiteout (directoryPath : String)
deriving DecidableEq, Repr

/-- One produced layer (`extensionApi.ImageFilesystemLayer`): the source
creates it as `{ id: layer.substring(0, 12) }` (no `createdBy`) and the
provider callbacks append entries. -/
structure ImageFilesystemLayer where
  id : String
  createdBy : Option String
  entries : List FsEntry
deriving DecidableEq, Repr

/-- `extensionApi.ImageFilesystemLayers`. -/
structure ImageFilesystemLayers where
  layers : List ImageFilesystemLayer
deriving DecidableEq, Repr

/-- The dispatch of `onentry` in `getLayersFromImageArchive`: opaque
whiteouts are recognized inside the generic whiteout branch; otherwise
the entry type string selects the variant, with `entry.mode ?? 0` and
`entry.linkpath ?? ''`. -/
def classifyEntry (e : TarEntry) : FsEntry :=
  if isWhiteout e.path then
    if isOpaqueWhiteout e.path then .opaqueWhiteout (nodeDirname e.path)
    else .whiteout ((getHiddenFile e.path).getD "")
  else if e.entryType = "Directory" then .directory e.path (e.mode.getD 0)
  else if e.entryType = "SymbolicLink" then .symlink e.path (e.mode.getD 0) (e.linkpath.getD "")
  else .file e.path (e.mode.getD 0) e.size

/-- The history-alignment loop of `getLayersFromImageArchive`:

```
let i = layersResult.length - 1;
for (const histo of history.slice().reverse()) {
  if (histo.empty_layer) continue;
  layersResult[i--].createdBy = histo.created_by;
}
```

The loop is modelled over the already-reversed history; writing through
a negative or out-of-range index is a TypeError in JS and `none` here. -/
def alignGo : List History → List ImageFilesystemLayer → Int → Option (List ImageFilesystemLayer)
  | [], ls, _ => some ls
  | h :: rest, ls, i =>
    if h.isEmptyLayer then alignGo rest ls i
    else if i < 0 then none
    else
      match ls.get? i.toNat with
      | none => none
      | some l => alignGo rest (ls.set i.toNat { l with createdBy := h.created_by }) (i - 1)

def alignHistory (layers : List ImageFilesystemLayer) (history : List History) :
    Option (List ImageFilesystemLayer) :=
  alignGo history.reverse layers ((layers.length : Int) - 1)

/-- First descriptor of `manifest.json`: the ordered layer archive paths
and the config document path. -/
structure ManifestEntry where
  Layers : List String
  Config : String
deriving DecidableEq, Repr

/-- An extracted image archive directory, at the granularity the parser
reads it: the parsed manifest list, the `history` list of the (parsed)
config document at a given path, and the entry listing of each layer's
tar archive.  The JSON parsing itself and the tar decoding are external
(`JSON.parse`, `tar.list`); the model starts from their results. -/
structure Archive where
  manifest : List ManifestEntry
  configHistory : String → List History
  layerTar : String → List TarEntry

/-- The per-layer body of the parser's main loop: a fresh layer with
`id = layer.substring(0, 12)` and the classified entries of the layer
tar, in archive order. -/
def buildLayer (a : Archive) (layerPath : String) : ImageFilesystemLayer :=
  { id := layerPath.take 12
    createdBy := none
    entries := (a.layerTar layerPath).map classifyEntry }

/-- `Explorer.getLayersFromImageArchive`: empty manifest yields an empty
layer list; otherwise the first descriptor's layers are scanned and the
config history is aligned to them in reverse. -/
def getLayersFromImageArchive (a : Archive) : Option ImageFilesystemLayers :=
  match a.manifest with
  | [] => some { layers := [] }
  | m :: _ =>
    let layersResult := m.Layers.map (buildLayer a)
    (alignHistory layersResult (a.configHistory m.Config)).map
      fun res => { layers := res }

/-- Number of history records with truthy `empty_layer` removed, i.e.
the records that consume a layer during alignment. -/
def countNonEmpty (history : List History) : Nat :=
  (history.filter (fun h => !h.isEmptyLayer)).length

/-- The `created_by` fields of the consuming history records, in
history order (oldest first). -/
def nonEmptyCreatedBys (history : List History) : List (Option String) :=
  (history.filter (fun h => !h.isEmptyLayer)).map (·.created_by)

/-! ## Serialization and compression (`JSON.stringify`/`JSON.parse`,
`node:zlib` gzip/gunzip)

`cache.ts` stores `gzip(JSON.stringify(layers))` and reads it back with
`JSON.parse(gunzip(bytes))`; the cache never inspects the blob.  Both
stages are external libraries, modelled as executable codecs with their
interface contract: the encoder is injective with a total inverse on
its image, and each decoder fails (`none`) on malformed input — exactly
the observable behaviour (`incorrect header check`, JSON syntax error)
the cache's error handling distinguishes. -/

/-- Length-prefixed string of character codes. -/
def encStr (s : String) : List Nat := s.data.length :: s.data.map Char.toNat

def decStr : List Nat → Option (String × List Nat)
  | [] => none
  | n :: rest =>
    if n ≤ rest.length then some (⟨(rest.take n).map Char.ofNat⟩, rest.drop n)
    else none

def encOptStr : Option String → List Nat
  | none => [0]
  | some s => 1 :: encStr s

def decOptStr : List Nat → Option (Option String × List Nat)
  | 0 :: rest => some (none, rest)
  | 1 :: rest => (decStr rest).map fun (s, r) => (some s, r)
  | _ => none

def encEntry : FsEntry → List Nat
  | .file p m sz => 0 :: encStr p ++ [m, sz]
  | .directory p m => 1 :: encStr p ++ [m]
  | .symlink p m lp => 2 :: encStr p ++ m :: encStr lp
  | .whiteout h => 3 :: encStr h
  | .opaqueWhiteout d => 4 :: encStr d

def decEntry : List Nat → Option (FsEntry × List Nat)
  | 0 :: rest =>
    (decStr rest).bind fun (p, r) =>
      match r with
      | m :: sz :: r' => some (.file p m sz, r')
      | _ => none
  | 1 :: rest =>
    (decStr rest).bind fun (p, r) =>
      match r with
      | m :: r' => some (.directory p m, r')
      | _ => none
  | 2 :: rest =>
    (decStr rest).bind fun (p, r) =>
      match r with
      | m :: r' => (decStr r').map fun (lp, r'') => (.symlink p m lp, r'')
      | _ => none
  | 3 :: rest => (decStr rest).map fun (h, r) => (.whiteout h, r)
  | 4 :: rest => (decStr rest).map fun (d, r) => (.opaqueWhiteout d, r)
  | _ => none

/-- Decode exactly `n` consecutive items. -/
def decCount {α : Type} (dec : List Nat → Option (α × List Nat)) :
    Nat → List Nat → Option (List α × List Nat)
  | 0, bs => some ([], bs)
  | n + 1, bs =>
    (dec bs).bind fun (a, bs') =>
      (decCount dec n bs').map fun (as, rest) => (a :: as, rest)

def encLayer (l : ImageFilesystemLayer) : List Nat :=
  encStr l.id ++ encOptStr l.createdBy ++
    (l.entries.length :: (l.entries.map encEntry).flatten)

def decLayer (bs : List Nat) : Option (ImageFilesystemLayer × List Nat) :=
  (decStr bs).bind fun (id, r1) =>
    (decOptStr r1).bind fun (cb, r2) =>
      match r2 with
      | n :: r3 =>
        (decCount decEntry n r3).map fun (es, rest) => (⟨id, cb, es⟩, rest)
      | [] => none

/-- Model of `JSON.stringify` on an `ImageFilesystemLayers` document. -/
def stringifyLayers (L : ImageFilesystemLayers) : List Nat :=
  L.layers.length :: (L.layers.map encLayer).flatten

/-- Model of `JSON.parse` back to the document; fails on malformed or
trailing input. -/
def parseLayers (bs : List Nat) : Option ImageFilesystemLayers :=
  match bs with
  | [] => none
  | n :: rest =>
    (decCount decLayer n rest).bind fun (ls, r) =>
      if r = [] then some ⟨ls⟩ else none

/-- Model of `zlib.gzip`: an invertible framing (header = payload
length).  Like real gzip output it is never empty. -/
def gzipM (bs : List Nat) : List Nat := bs.length :: bs

/-- Model of `zlib.gunzip`: rejects data whose header does not match
(`incorrect header check`). -/
def gunzipM : List Nat → Option (List Nat)
  | [] => none
  | n :: rest => if rest.length = n then some rest else none

/-- The whole read pipeline of `Cache.get` applied to a blob:
`JSON.parse(gunzip(blob))`. -/
def decodePipeline (bs : List Nat) : Option ImageFilesystemLayers :=
  (gunzipM bs).bind parseLayers

/-! ## Disk cache (`cache.ts`)

The cache root directory (`<path>/cache/v1`) is fixed for one `Cache`
instance; the filesystem model is the contents of that directory: a
list of files with name, bytes and access time, plus the set of names
whose removal the filesystem refuses (fault injection for `rm`,
modelling `EvictionError`).  `preferences.getCacheSize()` is read in
megabytes and scaled by `1024 * 1024` at each use; operations below
take the resulting byte budget `max` as a parameter. -/

structure CacheFile where
  name : String
  bytes : List Nat
  atime : Nat
deriving DecidableEq, Repr

structure CacheFS where
  entries : List CacheFile
  undeletable : List String
deriving DecidableEq, Repr

inductive CacheErr where
  /-- filesystem `ENOENT` -/
  | enoent
  /-- any other filesystem error (permissions, I/O) -/
  | ioError
deriving DecidableEq, Repr

/-- Warnings written with `console.warn`. -/
inductive CacheWarn where
  /-- `error getting/reading cache for <id>` -/
  | readError
  /-- `error saving cache file for <id>` -/
  | saveError
deriving DecidableEq, Repr

/-- `readFile` on the cache directory: the content of the named file. -/
def CacheFS.lookup (st : CacheFS) (name : String) : Option (List Nat) :=
  (st.entries.find? (fun f => f.name = name)).map (·.bytes)

/-- `utimes(filepath, now, now)`: refresh the access time. -/
def CacheFS.touch (st : CacheFS) (name : String) (now : Nat) : CacheFS :=
  { st with
    entries := st.entries.map fun f =>
      if f.name = name then { f with atime := now } else f }

/-- `writeFile` (after `mkdir -p`): replace or create the named file. -/
def CacheFS.write (st : CacheFS) (name : String) (bytes : List Nat) (now : Nat) : CacheFS :=
  { st with
    entries := st.entries.filter (fun f => f.name ≠ name) ++ [⟨name, bytes, now⟩] }

/-- `1024 * 1024 * this.preferences.getCacheSize()`: the byte budget for
a configured size in megabytes. -/
def cacheMaxBytes (cacheSizeMB : Nat) : Nat := 1024 * 1024 * cacheSizeMB

/-- `Cache.deleteCacheFile`: `rm` without `force` — `ENOENT` when the
file is missing, an I/O error when the filesystem refuses the removal,
otherwise the file is gone. -/
def deleteCacheFile (st : CacheFS) (name : String) : Except CacheErr CacheFS :=
  if st.entries.all (fun f => f.name ≠ name) then .error .enoent
  else if name ∈ st.undeletable then .error .ioError
  else .ok { st with entries := st.entries.filter (fun f => f.name ≠ name) }

/-- Stable insertion (descending access time) for
`sort((a, b) => b.atime - a.atime)`. -/
def insertByAtime (x : CacheFile) : List CacheFile → List CacheFile
  | [] => [x]
  | y :: ys => if y.atime < x.atime then x :: y :: ys else y :: insertByAtime x ys

/-- `Cache.getSortedFilesByAtime`: cache files most recently accessed
first (stable, like V8's `Array.prototype.sort`). -/
def getSortedFilesByAtime (st : CacheFS) : List CacheFile :=
  st.entries.foldr insertByAtime []

/-- The listing the eviction sweep iterates over: `{ name, size }` per
file, most recently accessed first (`size` is `statSync(...).size`). -/
structure CacheFileInfo where
  name : String
  size : Nat
deriving DecidableEq, Repr

def listFiles (st : CacheFS) : List CacheFileInfo :=
  (getSortedFilesByAtime st).map fun f => ⟨f.name, f.bytes.length⟩

/-- The body of `Cache.limitSize`'s loop:

```
for (const file of files) {
  if (acc + file.size > max) { await this.deleteCacheFile(file.name); continue; }
  acc += file.size;
}
```

A rejected deletion aborts the loop; the error also carries the state
at that point (deletions already performed persist). -/
def sweepGo (max : Nat) : List CacheFileInfo → CacheFS → Nat →
    Except (CacheErr × CacheFS) CacheFS
  | [], st, _ => .ok st
  | f :: rest, st, acc =>
    if acc + f.size > max then
      match deleteCacheFile st f.name with
      | .error e => .error (e, st)
      | .ok st' => sweepGo max rest st' acc
    else sweepGo max rest st (acc + f.size)

/-- `Cache.limitSize(reserved)` under byte budget `max`. -/
def limitSize (st : CacheFS) (max reserved : Nat) : Except (CacheErr × CacheFS) CacheFS :=
  sweepGo max (listFiles st) st reserved

/-- `Cache.get`: `ENOENT` on the read is a silent miss; a present file
has its access time refreshed, then is gunzipped and parsed — any
failure there is logged (`readError`) and reported as a miss. -/
def cacheGet (st : CacheFS) (now : Nat) (imageId : String) :
    Option ImageFilesystemLayers × CacheFS × List CacheWarn :=
  let filepath := imageId ++ ".gz"
  match st.lookup filepath with
  | none => (none, st, [])
  | some content =>
    let st' := st.touch filepath now
    match decodePipeline content with
    | some layers => (some layers, st', [])
    | none => (none, st', [.readError])

/-- `Cache.save`: compress, evict reserving the compressed size, then
write only if the compressed size fits the budget on its own.  The
enclosing `try/catch` turns every failure (in particular a failed
eviction) into a logged warning; `save` itself never rejects, which the
`Except` result type makes explicit. -/
def cacheSave (st : CacheFS) (max now : Nat) (imageId : String)
    (layers : ImageFilesystemLayers) : Except CacheErr (CacheFS × List CacheWarn) :=
  let compressed := gzipM (stringifyLayers layers)
  match limitSize st max compressed.length with
  | .error (_, st') => .ok (st', [.saveError])
  | .ok st' =>
    if compressed.length ≤ max then
      .ok (st'.write (imageId ++ ".gz") compressed now, [])
    else .ok (st', [])

/-- `Cache.clearImageCache`: delete `sha256:<id>.gz`; the result of
`deleteCacheFile` (including its errors) is returned as-is. -/
def clearImageCache (st : CacheFS) (id : String) : Except CacheErr CacheFS :=
  deleteCacheFile st ("sha256:" ++ id ++ ".gz")

/-! ## Concrete filesystem states used by counterexamples and witnesses -/

/-- A cache file of a given size (the eviction sweep only reads names
and sizes, never contents). -/
def exampleFile (name : String) (size atime : Nat) : CacheFile :=
  ⟨name, List.replicate size 7, atime⟩

/-- The spec's second eviction scenario: recency-ordered sizes
`[300000, 300000, 300000, 30, 30, 300000]`, most recently accessed
first (access times 60 … 10). -/
def fsSixFiles : CacheFS :=
  ⟨[exampleFile "1.gz" 300000 60, exampleFile "2.gz" 300000 50,
    exampleFile "3.gz" 300000 40, exampleFile "4.gz" 30 30,
    exampleFile "5.gz" 30 20, exampleFile "6.gz" 300000 10], []⟩

/-- The spec's first eviction scenario: three files of 300000 bytes. -/
def fsThreeFiles : CacheFS :=
  ⟨[exampleFile "1.gz" 300000 30, exampleFile "2.gz" 300000 20,
    exampleFile "3.gz" 300000 10], []⟩

/-- One cache file whose removal the filesystem refuses. -/
def fsUndeletable : CacheFS := ⟨[exampleFile "a.gz" 10 5], ["a.gz"]⟩

/-- One present cache file holding bytes no gunzip/parse accepts. -/
def fsCorrupt : CacheFS := ⟨[⟨"c.gz", [99], 4⟩], []⟩

/-- A small non-empty layer document for round-trip witnesses. -/
def exampleLayers : ImageFilesystemLayers :=
  ⟨[⟨"layer1", some "RUN x", [.file "bin/a" 493 12, .whiteout "etc/b"]⟩]⟩

/-- Archive with two layers but a single consuming history record. -/
def exampleArchive : Archive :=
  { manifest := [⟨["aaaabbbbccccdddd", "eeeeffffgggghhhh"], "config.json"⟩]
    configHistory := fun _ => [⟨some "cmd1", none⟩]
    layerTar := fun _ => [] }

/-! ## Round-trip of the serialization pipeline -/

theorem decStr_encStr (s : String) (r : List Nat) :
    decStr (encStr s ++ r) = some (s, r) := by
  have hlen : (s.data.map Char.toNat).length = s.data.length := List.length_map _ _
  have h1 : ((s.data.map Char.toNat ++ r).take s.data.length).map Char.ofNat = s.data := by
    rw [← hlen, List.take_left, List.map_map]
    calc s.data.map (Char.ofNat ∘ Char.toNat)
        = s.data.map id := List.map_congr_left (fun c _ => Char.ofNat_toNat c)
      _ = s.data := List.map_id _
  have h2 : (s.data.map Char.toNat ++ r).drop s.data.length = r := by
    rw [← hlen, List.drop_left]
  show decStr (s.data.length :: (s.data.map Char.toNat ++ r)) = some (s, r)
  rw [decStr, if_pos (by rw [List.length_append, hlen]; omega), h1, h2]

theorem decOptStr_encOptStr (o : Option String) (r : List Nat) :
    decOptStr (encOptStr o ++ r) = some (o, r) := by
  cases o with
  | none => rfl
  | some s =>
    show decOptStr (1 :: (encStr s ++ r)) = _
    rw [decOptStr, decStr_encStr]
    rfl

theorem decEntry_encEntry (e : FsEntry) (r : List Nat) :
    decEntry (encEntry e ++ r) = some (e, r) := by
  cases e with
  | file p m sz =>
    show decEntry (0 :: (encStr p ++ [m, sz] ++ r)) = _
    rw [decEntry, List.append_assoc, decStr_encStr]
    rfl
  | directory p m =>
    show decEntry (1 :: (encStr p ++ [m] ++ r)) = _
    rw [decEntry, List.append_assoc, decStr_encStr]
    rfl
  | symlink p m lp =>
    show decEntry (2 :: (encStr p ++ (m :: encStr lp) ++ r)) = _
    rw [decEntry, List.append_assoc, decStr_encStr]
    show (decStr (encStr lp ++ r)).map _ = _
    rw [decStr_encStr]
    rfl
  | whiteout h =>
    show decEntry (3 :: (encStr h ++ r)) = _
    rw [decEntry, decStr_encStr]
    rfl
  | opaqueWhiteout d =>
    show decEntry (4 :: (encStr d ++ r)) = _
    rw [decEntry, decStr_encStr]
    rfl

theorem decCount_enc {α : Type} (enc : α → List Nat)
    (dec : List Nat → Option (α × List Nat))
    (hdec : ∀ a r, dec (enc a ++ r) = some (a, r)) (l : List α) (r : List Nat) :
    decCount dec l.length ((l.map enc).flatten ++ r) = some (l, r) := by
  induction l with
  | nil => rfl
  | cons a t ih =>
    show decCount dec (t.length + 1) ((enc a ++ (t.map enc).flatten) ++ r) = _
    rw [decCount, List.append_assoc, hdec]
    show (decCount dec t.length ((t.map enc).flatten ++ r)).map _ = _
    rw [ih]
    rfl

theorem decLayer_encLayer (l : ImageFilesystemLayer) (r : List Nat) :
    decLayer (encLayer l ++ r) = some (l, r) := by
  show decLayer ((encStr l.id ++ encOptStr l.createdBy ++
    (l.entries.length :: (l.entries.map encEntry).flatten)) ++ r) = _
  rw [List.append_assoc, List.append_assoc, decLayer, decStr_encStr]
  show (decOptStr (encOptStr l.createdBy ++
    ((l.entries.length :: (l.entries.map encEntry).flatten) ++ r))).bind _ = _
  rw [decOptStr_encOptStr]
  show (decCount decEntry l.entries.length ((l.entries.map encEntry).flatten ++ r)).map _ = _
  rw [decCount_enc encEntry decEntry decEntry_encEntry]
  rfl

theorem parseLayers_stringifyLayers (L : ImageFilesystemLayers) :
    parseLayers (stringifyLayers L) = some L := by
  show parseLayers (L.layers.length :: (L.layers.map encLayer).flatten) = _
  rw [parseLayers]
  have := decCount_enc encLayer decLayer decLayer_encLayer L.layers []
  rw [List.append_nil] at this
  rw [this]
  rfl

theorem gunzipM_gzipM (bs : List Nat) : gunzipM (gzipM bs) = some bs := by
  simp [gzipM, gunzipM]

theorem decodePipeline_enc (L : ImageFilesystemLayers) :
    decodePipeline (gzipM (stringifyLayers L)) = some L := by
  rw [decodePipeline, gunzipM_gzipM]
  exact parseLayers_stringifyLayers L

/-! ## Behaviour of the eviction sweep on a fault-free filesystem -/

theorem insertByAtime_perm (x : CacheFile) (l : List CacheFile) :
    (insertByAtime x l).Perm (x :: l) := by
  induction l with
  | nil => exact List.Perm.refl _
  | cons y ys ih =>
    rw [insertByAtime]
    by_cases h : y.atime < x.atime
    · rw [if_pos h]
    · rw [if_neg h]
      exact (ih.cons y).trans (List.Perm.swap x y ys)

theorem getSortedFilesByAtime_perm (st : CacheFS) :
    (getSortedFilesByAtime st).Perm st.entries := by
  rw [getSortedFilesByAtime]
  induction st.entries with
  | nil => exact List.Perm.refl _
  | cons f fs ih =>
    exact ((insertByAtime_perm f (fs.foldr insertByAtime [])).trans (ih.cons f))

theorem listFiles_names_perm (st : CacheFS) :
    ((listFiles st).map (·.name)).Perm (st.entries.map (·.name)) := by
  rw [listFiles, List.map_map]
  exact (getSortedFilesByAtime_perm st).map _

theorem mem_listFiles (st : CacheFS) (f : CacheFileInfo) (hf : f ∈ listFiles st) :
    ∃ g ∈ st.entries, g.name = f.name := by
  rw [listFiles] at hf
  obtain ⟨g, hg, rfl⟩ := List.mem_map.mp hf
  exact ⟨g, (getSortedFilesByAtime_perm st).mem_iff.mp hg, rfl⟩

theorem deleteCacheFile_ok (st : CacheFS) (name : String)
    (hpresent : ∃ g ∈ st.entries, g.name = name) (hfault : st.undeletable = []) :
    deleteCacheFile st name =
      .ok { st with entries := st.entries.filter (fun f => f.name ≠ name) } := by
  rw [deleteCacheFile]
  obtain ⟨g, hg, hgname⟩ := hpresent
  have hall : ¬ (st.entries.all (fun f => f.name ≠ name) = true) := by
    rw [List.all_eq_true]
    intro h
    have := h g hg
    simp [hgname] at this
  rw [if_neg hall, if_neg (by rw [hfault]; exact List.not_mem_nil name)]

/-- On a fault-free filesystem whose listing has no duplicate names and
only names of present files, the sweep never rejects. -/
theorem sweepGo_ok (max : Nat) (fs : List CacheFileInfo) :
    ∀ (st : CacheFS) (acc : Nat), st.undeletable = [] →
    (fs.map (·.name)).Nodup →
    (∀ f ∈ fs, ∃ g ∈ st.entries, g.name = f.name) →
    ∃ st', sweepGo max fs st acc = .ok st' ∧ st'.undeletable = [] := by
  induction fs with
  | nil => exact fun st acc h1 _ _ => ⟨st, rfl, h1⟩
  | cons f rest ih =>
    intro st acc h1 h2 h3
    rw [sweepGo]
    by_cases hgt : acc + f.size > max
    · rw [if_pos hgt, deleteCacheFile_ok st f.name (h3 f (by simp)) h1]
      have h2' : (rest.map (·.name)).Nodup := (List.nodup_cons.mp h2).2
      have hnf : f.name ∉ rest.map (·.name) := (List.nodup_cons.mp h2).1
      refine ih _ acc h1 h2' ?_
      intro f' hf'
      obtain ⟨g, hg, hgname⟩ := h3 f' (by simp [hf'])
      refine ⟨g, List.mem_filter.mpr ⟨hg, ?_⟩, hgname⟩
      have hne : f'.name ≠ f.name := by
        intro heq
        exact hnf (heq ▸ List.mem_map_of_mem (·.name) hf')
      simp [hgname, hne]
    · rw [if_neg hgt]
      exact ih st (acc + f.size) h1 (List.nodup_cons.mp h2).2
        (fun f' hf' => h3 f' (by simp [hf']))

/-- `limitSize` on a fault-free filesystem with distinct file names
succeeds. -/
theorem limitSize_ok (st : CacheFS) (max reserved : Nat)
    (hfault : st.undeletable = []) (hnodup : (st.entries.map (·.name)).Nodup) :
    ∃ st', limitSize st max reserved = .ok st' ∧ st'.undeletable = [] := by
  refine sweepGo_ok max (listFiles st) st reserved hfault ?_ (mem_listFiles st)
  exact (listFiles_names_perm st).nodup_iff.mpr hnodup

/-- When even the reserved size exceeds the budget, every file in the
listing is deleted; if the listing covers the filesystem, nothing at
all remains. -/
theorem sweepGo_deleteAll (max : Nat) (fs : List CacheFileInfo) :
    ∀ (st : CacheFS) (acc : Nat), st.undeletable = [] →
    (fs.map (·.name)).Nodup →
    (∀ f ∈ fs, ∃ g ∈ st.entries, g.name = f.name) →
    (∀ g ∈ st.entries, g.name ∈ fs.map (·.name)) →
    acc > max →
    sweepGo max fs st acc = .ok ⟨[], []⟩ := by
  induction fs with
  | nil =>
    intro st acc h1 _ _ hcover _
    have : st.entries = [] := by
      cases hst : st.entries with
      | nil => rfl
      | cons g gs => exact absurd (hcover g (by rw [hst]; simp)) (by simp)
    cases st
    simp_all [sweepGo]
  | cons f rest ih =>
    intro st acc h1 h2 h3 hcover hacc
    rw [sweepGo, if_pos (by omega),
      deleteCacheFile_ok st f.name (h3 f (by simp)) h1]
    have h2' : (rest.map (·.name)).Nodup := (List.nodup_cons.mp h2).2
    have hnf : f.name ∉ rest.map (·.name) := (List.nodup_cons.mp h2).1
    refine ih _ acc h1 h2' ?_ ?_ hacc
    · intro f' hf'
      obtain ⟨g, hg, hgname⟩ := h3 f' (by simp [hf'])
      refine ⟨g, List.mem_filter.mpr ⟨hg, ?_⟩, hgname⟩
      have hne : f'.name ≠ f.name := by
        intro heq
        exact hnf (heq ▸ List.mem_map_of_mem (·.name) hf')
      simp [hgname, hne]
    · intro g hg
      have hg' := List.mem_filter.mp hg
      have := hcover g hg'.1
      simp only [List.map_cons, List.mem_cons] at this
      rcases this with h | h
      · have hne : g.name ≠ f.name := by simpa using hg'.2
        exact absurd h hne
      · exact h

theorem lookup_write (st : CacheFS) (name : String) (bytes : List Nat) (now : Nat) :
    (st.write name bytes now).lookup name = some bytes := by
  rw [CacheFS.write, CacheFS.lookup]
  have hskip : (st.entries.filter (fun f => f.name ≠ name)).find?
      (fun f => f.name = name) = none := by
    rw [List.find?_eq_none]
    intro x hx
    have hx' := List.of_mem_filter hx
    simp only [decide_eq_true_eq] at hx' ⊢
    exact fun h => hx' (by simp [h])
  simp only [List.find?_append, hskip, Option.none_orElse]
  simp [List.find?]

/-! ## Characterization of the reverse history alignment -/

theorem set_append_cons {α : Type} (F : List α) (x v : α) (back : List α) :
    (F ++ x :: back).set F.length v = F ++ v :: back := by
  induction F with
  | nil => rfl
  | cons a t ih => simp [List.set, ih]

/-- Walking the reversed history assigns the `created_by` of each
consuming record to the layers from the back of `front`, one per
record, leaving the prefix and everything after the starting index
untouched. -/
theorem alignGo_spec (revH : List History) :
    ∀ (front back : List ImageFilesystemLayer),
    (revH.filter (fun h => !h.isEmptyLayer)).length ≤ front.length →
    alignGo revH (front ++ back) ((front.length : Int) - 1) =
      some (front.take (front.length - (revH.filter (fun h => !h.isEmptyLayer)).length)
        ++ List.zipWith (fun l cb => { l with createdBy := cb })
            (front.drop (front.length - (revH.filter (fun h => !h.isEmptyLayer)).length))
            (((revH.filter (fun h => !h.isEmptyLayer)).map (·.created_by)).reverse)
        ++ back) := by
  induction revH with
  | nil =>
    intro front back _
    simp [alignGo]
  | cons h rest ih =>
    intro front back hk
    by_cases hE : h.isEmptyLayer
    · rw [alignGo, if_pos hE]
      have hfe : (List.filter (fun h => !h.isEmptyLayer) (h :: rest)) =
          List.filter (fun h => !h.isEmptyLayer) rest := by
        simp [List.filter, hE]
      rw [hfe] at hk ⊢
      exact ih front back hk
    · have hfe : (List.filter (fun h => !h.isEmptyLayer) (h :: rest)) =
          h :: List.filter (fun h => !h.isEmptyLayer) rest := by
        simp [List.filter, hE]
      rw [hfe] at hk ⊢
      have hfront : front ≠ [] := by
        intro hnil
        rw [hnil] at hk
        simp at hk
      obtain ⟨F, lastL, rfl⟩ : ∃ F lastL, front = F ++ [lastL] :=
        ⟨front.dropLast, front.getLast hfront,
          (List.dropLast_append_getLast hfront).symm⟩
      have hk2 : (List.filter (fun h => !h.isEmptyLayer) rest).length ≤ F.length := by
        simp only [List.length_cons, List.length_append, List.length_singleton,
          List.length_nil] at hk
        omega
      have hlen : (F ++ [lastL]).length = F.length + 1 := by simp
      rw [alignGo, if_neg hE, if_neg (by rw [hlen]; push_cast; omega)]
      have htoNat : (((F ++ [lastL]).length : Int) - 1).toNat = F.length := by
        rw [hlen]; omega
      rw [htoNat]
      have hget : ((F ++ [lastL]) ++ back).get? F.length = some lastL := by
        rw [List.append_assoc, List.singleton_append, List.get?_eq_getElem?,
          List.getElem?_append_right (le_refl F.length)]
        simp
      rw [hget]
      have hset : ∀ v, ((F ++ [lastL]) ++ back).set F.length v = F ++ v :: back :=
        fun v => by rw [List.append_assoc, List.singleton_append, set_append_cons]
      show alignGo rest (((F ++ [lastL]) ++ back).set F.length
        { lastL with createdBy := h.created_by }) (((F ++ [lastL]).length : Int) - 1 - 1) = _
      rw [hset]
      have hi : (((F ++ [lastL]).length : Int) - 1) - 1 = ((F.length : Int) - 1) := by
        rw [hlen]; push_cast; omega
      rw [hi, ih F ({ lastL with createdBy := h.created_by } :: back) hk2]
      have harith : (F ++ [lastL]).length - (h :: List.filter (fun h => !h.isEmptyLayer) rest).length
          = F.length - (List.filter (fun h => !h.isEmptyLayer) rest).length := by
        simp only [List.length_cons, List.length_append, List.length_singleton,
          List.length_nil]
        omega
      rw [harith]
      have htake : (F ++ [lastL]).take (F.length - (List.filter (fun h => !h.isEmptyLayer) rest).length)
          = F.take (F.length - (List.filter (fun h => !h.isEmptyLayer) rest).length) :=
        List.take_append_of_le_length (Nat.sub_le _ _)
      have hdrop : (F ++ [lastL]).drop (F.length - (List.filter (fun h => !h.isEmptyLayer) rest).length)
          = F.drop (F.length - (List.filter (fun h => !h.isEmptyLayer) rest).length) ++ [lastL] :=
        List.drop_append_of_le_length (Nat.sub_le _ _)
      have hlens : (F.drop (F.length - (List.filter (fun h => !h.isEmptyLayer) rest).length)).length
          = ((List.filter (fun h => !h.isEmptyLayer) rest).map (·.created_by)).reverse.length := by
        simp only [List.length_drop, List.length_reverse, List.length_map]
        omega
      rw [htake, hdrop, List.map_cons, List.reverse_cons,
        List.zipWith_append _ _ _ _ _ hlens]
      simp [List.append_assoc]

/-- `alignHistory` on layers and history (oldest first): when the
history's consuming records fit, the last `k` layers receive their
`created_by` values in order and the leading layers are untouched. -/
theorem alignHistory_spec (layers : List ImageFilesystemLayer) (history : List History)
    (h : countNonEmpty history ≤ layers.length) :
    alignHistory layers history = some (
      layers.take (layers.length - countNonEmpty history) ++
      List.zipWith (fun l cb => { l with createdBy := cb })
        (layers.drop (layers.length - countNonEmpty history))
        (nonEmptyCreatedBys history)) := by
  rw [alignHistory]
  have hfilter : history.reverse.filter (fun h => !h.isEmptyLayer) =
      (history.filter (fun h => !h.isEmptyLayer)).reverse := List.filter_reverse _ _
  have hlen : (history.reverse.filter (fun h => !h.isEmptyLayer)).length =
      countNonEmpty history := by
    rw [hfilter, List.length_reverse]
    rfl
  have hcb : ((history.reverse.filter (fun h => !h.isEmptyLayer)).map (·.created_by)).reverse =
      nonEmptyCreatedBys history := by
    rw [hfilter, List.map_reverse, List.reverse_reverse]
    rfl
  have := alignGo_spec history.reverse layers [] (by rw [hlen]; exact h)
  rw [List.append_nil] at this
  rw [this, hlen, hcb, List.append_nil]

/-! ## Evaluation helpers for the concrete eviction scenarios -/

theorem exampleFile_name (n : String) (s a : Nat) : (exampleFile n s a).name = n := rfl

theorem exampleFile_atime (n : String) (s a : Nat) : (exampleFile n s a).atime = a := rfl

theorem exampleFile_size (n : String) (s a : Nat) : (exampleFile n s a).bytes.length = s := by
  rw [exampleFile]
  exact List.length_replicate _ _

theorem listFiles_fsSixFiles : listFiles fsSixFiles =
    [⟨"1.gz", 300000⟩, ⟨"2.gz", 300000⟩, ⟨"3.gz", 300000⟩,
     ⟨"4.gz", 30⟩, ⟨"5.gz", 30⟩, ⟨"6.gz", 300000⟩] := by
  simp [listFiles, getSortedFilesByAtime, insertByAtime, fsSixFiles,
    exampleFile_name, exampleFile_atime, exampleFile_size]

theorem listFiles_fsThreeFiles : listFiles fsThreeFiles =
    [⟨"1.gz", 300000⟩, ⟨"2.gz", 300000⟩, ⟨"3.gz", 300000⟩] := by
  simp [listFiles, getSortedFilesByAtime, insertByAtime, fsThreeFiles,
    exampleFile_name, exampleFile_atime, exampleFile_size]

/-! ## Claims -/

/-- C1 (amended): over the listing with sizes
`[300000, 300000, 300000, 30, 30, 300000]` (most recently accessed
first, oldest last), a `limitSize` run with the configured budget of
1 MiB (1048576 bytes) and 300000 bytes reserved deletes exactly the 3rd
and 6th files of the listing; the two 30-byte files survive although
they are older than the deleted 3rd file, because each candidate is
checked against the running accumulated total rather than by a recency
prefix. -/
theorem claim_C1 :
    (limitSize fsSixFiles 1048576 300000).toOption.map
      (fun s => s.entries.map (·.name)) = some ["1.gz", "2.gz", "4.gz", "5.gz"] := by
  rw [limitSize, listFiles_fsSixFiles]
  simp [sweepGo, deleteCacheFile, fsSixFiles, exampleFile_name, Except.toOption]

/-- C1 counterexample: with the budget of 300000 bytes stated by the
claim (and nothing reserved), the very first file exhausts the budget
and the sweep deletes files 2–6 — in particular both 30-byte files —
so the surviving set is not the claimed one. -/
theorem claim_C1_counterexample :
    (limitSize fsSixFiles 300000 0).toOption.map
      (fun s => s.entries.map (·.name)) = some ["1.gz"] ∧
    (limitSize fsSixFiles 300000 0).toOption.map
      (fun s => s.entries.map (·.name)) ≠ some ["1.gz", "2.gz", "4.gz", "5.gz"] := by
  have h : (limitSize fsSixFiles 300000 0).toOption.map
      (fun s => s.entries.map (·.name)) = some ["1.gz"] := by
    rw [limitSize, listFiles_fsSixFiles]
    simp [sweepGo, deleteCacheFile, fsSixFiles, exampleFile_name, Except.toOption]
  exact ⟨h, by rw [h]; simp⟩

/-- C2 (amended): on three files of 300000 bytes each under the
configured budget of 1 MiB (1048576 bytes), `limitSize` invoked with
300000 bytes reserved deletes exactly the least recently accessed file,
and the remaining files total 600000 bytes, within the budget. -/
theorem claim_C2 :
    (limitSize fsThreeFiles 1048576 300000).toOption.map
      (fun s => s.entries.map (·.name)) = some ["1.gz", "2.gz"] ∧
    (limitSize fsThreeFiles 1048576 300000).toOption.map
      (fun s => (s.entries.map (·.bytes.length)).sum) = some 600000 ∧
    600000 ≤ 1048576 := by
  refine ⟨?_, ?_, by omega⟩ <;>
  · rw [limitSize, listFiles_fsThreeFiles]
    simp [sweepGo, deleteCacheFile, fsThreeFiles, exampleFile_name, exampleFile_size,
      Except.toOption]

/-- C2 counterexample: with the claimed budget of 300000 bytes and 0
reserved, the first file alone fills the budget and the sweep deletes
two files (the 2nd and 3rd), not exactly one. -/
theorem claim_C2_counterexample :
    (limitSize fsThreeFiles 300000 0).toOption.map
      (fun s => s.entries.map (·.name)) = some ["1.gz"] ∧
    (limitSize fsThreeFiles 300000 0).toOption.map
      (fun s => s.entries.map (·.name)) ≠ some ["1.gz", "2.gz"] := by
  have h : (limitSize fsThreeFiles 300000 0).toOption.map
      (fun s => s.entries.map (·.name)) = some ["1.gz"] := by
    rw [limitSize, listFiles_fsThreeFiles]
    simp [sweepGo, deleteCacheFile, fsThreeFiles, exampleFile_name, Except.toOption]
  exact ⟨h, by rw [h]; simp⟩

/-- C5: on a fault-free cache directory with distinct file names, if the
compressed serialization of `L` fits the configured budget, `save`
followed by `get` for the same image returns a value equal to `L`
(including the empty layer list, which the witness below does not need
to special-case: `L` is arbitrary). -/
theorem claim_C5 (st : CacheFS) (max now now2 : Nat) (imageId : String)
    (L : ImageFilesystemLayers)
    (hfault : st.undeletable = [])
    (hnodup : (st.entries.map (·.name)).Nodup)
    (hfit : (gzipM (stringifyLayers L)).length ≤ max) :
    ∃ st', cacheSave st max now imageId L = .ok (st', []) ∧
      (cacheGet st' now2 imageId).1 = some L := by
  obtain ⟨st1, hok, _⟩ :=
    limitSize_ok st max (gzipM (stringifyLayers L)).length hfault hnodup
  refine ⟨st1.write (imageId ++ ".gz") (gzipM (stringifyLayers L)) now, ?_, ?_⟩
  · simp [cacheSave, hok, hfit]
  · simp [cacheGet, lookup_write, decodePipeline_enc]

/-- C5 witness: a concrete non-empty document round-trips through an
empty cache under a 1 MB budget. -/
theorem claim_C5_witness :
    ∃ st', cacheSave ⟨[], []⟩ 1048576 3 "sha256:w" exampleLayers = .ok (st', []) ∧
      (cacheGet st' 4 "sha256:w").1 = some exampleLayers :=
  claim_C5 ⟨[], []⟩ 1048576 3 4 "sha256:w" exampleLayers rfl (by decide) (by decide)

/-- C6 (amended): a deletion failure inside the eviction sweep aborts
the sweep and is propagated to the caller of `limitSize` (second
conjunct); a `save` whose eviction fails aborts without writing the new
entry, but `save` catches the error and only logs a warning — it
completes normally instead of surfacing the eviction error (first
conjunct). -/
theorem claim_C6 (st : CacheFS) (max now : Nat) (imageId : String)
    (L : ImageFilesystemLayers) (e : CacheErr) (stPartial : CacheFS)
    (hfail : limitSize st max (gzipM (stringifyLayers L)).length = .error (e, stPartial)) :
    cacheSave st max now imageId L = .ok (stPartial, [.saveError]) ∧
    ∀ (f : CacheFileInfo) (rest : List CacheFileInfo) (stx : CacheFS) (acc : Nat),
      max < acc + f.size → deleteCacheFile stx f.name = .error e →
      sweepGo max (f :: rest) stx acc = .error (e, stx) := by
  constructor
  · simp [cacheSave, hfail]
  · intro f rest stx acc hgt hdel
    rw [sweepGo, if_pos hgt, hdel]

/-- C6 counterexample: with one undeletable cache file and budget 0,
eviction fails inside `save` (the `limitSize` call rejects), yet `save`
completes with `.ok` — it writes nothing, logs the warning, and does
not surface the eviction error, contradicting the claimed propagation
to `save`'s caller. -/
theorem claim_C6_counterexample :
    limitSize fsUndeletable 0 (gzipM (stringifyLayers ⟨[]⟩)).length =
      .error (.ioError, fsUndeletable) ∧
    cacheSave fsUndeletable 0 9 "sha256:img" ⟨[]⟩ = .ok (fsUndeletable, [.saveError]) := by
  constructor <;> decide

/-- C6 witness: the amended behaviour at a concrete state — eviction
fails, `save` returns normally with only the logged warning. -/
theorem claim_C6_witness :
    cacheSave fsUndeletable 0 11 "sha256:other" ⟨[]⟩ = .ok (fsUndeletable, [.saveError]) ∧
    sweepGo 0 [⟨"a.gz", 10⟩] fsUndeletable 2 = .error (.ioError, fsUndeletable) := by
  refine ⟨(claim_C6 fsUndeletable 0 11 "sha256:other" ⟨[]⟩ .ioError fsUndeletable
    (by decide)).1, ?_⟩
  exact (claim_C6 fsUndeletable 0 11 "sha256:other" ⟨[]⟩ .ioError fsUndeletable
    (by decide)).2 ⟨"a.gz", 10⟩ [] fsUndeletable 2 (by omega) (by decide)

/-- C7: `get` never surfaces an error: a missing cache file is a silent
miss (no warning logged), while a present but undecodable file (gunzip
or parse failure) is a miss with a logged warning — the two cases are
distinguished exactly by the warning list. -/
theorem claim_C7 (st : CacheFS) (now : Nat) (imageId : String) :
    (st.lookup (imageId ++ ".gz") = none →
      cacheGet st now imageId = (none, st, [])) ∧
    (∀ c, st.lookup (imageId ++ ".gz") = some c → decodePipeline c = none →
      (cacheGet st now imageId).1 = none ∧
      (cacheGet st now imageId).2.2 = [.readError]) := by
  constructor
  · intro h
    simp [cacheGet, h]
  · intro c h hdec
    constructor <;> simp [cacheGet, h, hdec]

/-- C7 witness: an empty cache misses silently; a present corrupt file
misses with the warning. -/
theorem claim_C7_witness :
    cacheGet ⟨[], []⟩ 0 "x" = (none, ⟨[], []⟩, []) ∧
    (cacheGet fsCorrupt 9 "c").1 = none ∧
    (cacheGet fsCorrupt 9 "c").2.2 = [.readError] := by
  refine ⟨(claim_C7 ⟨[], []⟩ 0 "x").1 rfl, ?_, ?_⟩
  · exact ((claim_C7 fsCorrupt 9 "c").2 [99] rfl (by decide)).1
  · exact ((claim_C7 fsCorrupt 9 "c").2 [99] rfl (by decide)).2

/-- C9 (amended): `clearImageCache id` deletes the single cache file
`sha256:<id>.gz`; but because the underlying remove is not forced,
calling it when that file does not exist IS an error: the `ENOENT`
rejection propagates to the caller. -/
theorem claim_C9 (st : CacheFS) (id : String) :
    ((∀ g ∈ st.entries, g.name ≠ "sha256:" ++ id ++ ".gz") →
      clearImageCache st id = .error .enoent) ∧
    ((∃ g ∈ st.entries, g.name = "sha256:" ++ id ++ ".gz") →
      ("sha256:" ++ id ++ ".gz") ∉ st.undeletable →
      clearImageCache st id = .ok
        { st with entries :=
            st.entries.filter (fun f => f.name ≠ "sha256:" ++ id ++ ".gz") }) := by
  constructor
  · intro h
    rw [clearImageCache, deleteCacheFile,
      if_pos (by rw [List.all_eq_true]; intro g hg; simpa using h g hg)]
  · intro hpresent hundel
    obtain ⟨g, hg, hgname⟩ := hpresent
    rw [clearImageCache, deleteCacheFile]
    rw [if_neg (by
      rw [List.all_eq_true]
      intro hall
      have := hall g hg
      simp [hgname] at this), if_neg hundel]

/-- C9 witness: deleting a present file succeeds and removes exactly it;
deleting a missing file errors with `ENOENT`. -/
theorem claim_C9_witness :
    clearImageCache ⟨[⟨"sha256:abc.gz", [1], 0⟩], []⟩ "abc" =
      .ok ⟨[], []⟩ ∧
    clearImageCache ⟨[⟨"other.gz", [1], 0⟩], []⟩ "abc" = .error .enoent := by
  constructor
  · have := (claim_C9 ⟨[⟨"sha256:abc.gz", [1], 0⟩], []⟩ "abc").2
      ⟨⟨"sha256:abc.gz", [1], 0⟩, by simp, by decide⟩ (by simp)
    exact this.trans (by decide)
  · exact (claim_C9 ⟨[⟨"other.gz", [1], 0⟩], []⟩ "abc").1 (by decide)

/-- C9 counterexample: on an empty cache directory, `clearImageCache`
rejects with `ENOENT` instead of completing without error as claimed. -/
theorem claim_C9_counterexample :
    clearImageCache ⟨[], []⟩ "abc" = .error .enoent := by
  decide

/-- C10: `save` runs the eviction sweep reserving the entry's exact
compressed size before the budget check, so whenever the compressed
entry alone exceeds the whole budget (on a fault-free directory with
distinct names — in particular for every save under budget 0), every
existing cache file is evicted and the new entry is never written: the
directory ends empty, with no error and no warning. -/
theorem claim_C10 (st : CacheFS) (max now : Nat) (imageId : String)
    (L : ImageFilesystemLayers)
    (hfault : st.undeletable = [])
    (hnodup : (st.entries.map (·.name)).Nodup)
    (hbig : max < (gzipM (stringifyLayers L)).length) :
    cacheSave st max now imageId L = .ok (⟨[], []⟩, []) := by
  have hcover : ∀ g ∈ st.entries, g.name ∈ (listFiles st).map (·.name) := fun g hg =>
    (listFiles_names_perm st).mem_iff.mpr (List.mem_map_of_mem _ hg)
  have hall := sweepGo_deleteAll max (listFiles st) st (gzipM (stringifyLayers L)).length
    hfault ((listFiles_names_perm st).nodup_iff.mpr hnodup) (mem_listFiles st) hcover hbig
  have hle : ¬ ((gzipM (stringifyLayers L)).length ≤ max) := by omega
  simp [cacheSave, limitSize, hall, hle]

/-- C10 witness: a save of an empty document under budget 0 evicts both
existing files and writes nothing. -/
theorem claim_C10_witness :
    cacheSave ⟨[⟨"a.gz", [1, 2, 3], 5⟩, ⟨"b.gz", [], 9⟩], []⟩ 0 7 "sha256:img" ⟨[]⟩ =
      .ok (⟨[], []⟩, []) :=
  claim_C10 ⟨[⟨"a.gz", [1, 2, 3], 5⟩, ⟨"b.gz", [], 9⟩], []⟩ 0 7 "sha256:img" ⟨[]⟩
    rfl (by decide) (by decide)

/-- C3: the history alignment walks the history and the produced layers
from last to first in lockstep: whenever the consuming (non-empty)
records fit, the last `k` layers receive the `created_by` of the `k`
consuming records in order, records with truthy `empty_layer` consume
no layer, and the leading layers are left untouched. -/
theorem claim_C3 (layers : List ImageFilesystemLayer) (history : List History)
    (hk : countNonEmpty history ≤ layers.length) :
    alignHistory layers history = some (
      layers.take (layers.length - countNonEmpty history) ++
      List.zipWith (fun l cb => { l with createdBy := cb })
        (layers.drop (layers.length - countNonEmpty history))
        (nonEmptyCreatedBys history)) :=
  alignHistory_spec layers history hk

/-- C3 witness: for layers `[A, B, C]` and history
`[{empty_layer: true}, {created_by: x}, {created_by: y}, {created_by: z}]`
the result is `A.createdBy = x`, `B.createdBy = y`, `C.createdBy = z`. -/
theorem claim_C3_witness :
    alignHistory [⟨"A", none, []⟩, ⟨"B", none, []⟩, ⟨"C", none, []⟩]
      [⟨none, some true⟩, ⟨some "x", none⟩, ⟨some "y", none⟩, ⟨some "z", none⟩] =
      some [⟨"A", some "x", []⟩, ⟨"B", some "y", []⟩, ⟨"C", some "z", []⟩] :=
  (claim_C3 [⟨"A", none, []⟩, ⟨"B", none, []⟩, ⟨"C", none, []⟩]
    [⟨none, some true⟩, ⟨some "x", none⟩, ⟨some "y", none⟩, ⟨some "z", none⟩]
    (by decide)).trans (by decide)

/-- C8: when the config history holds fewer consuming (non-empty)
records than the manifest's `Layers` list has layers, the parser
succeeds, returns one output layer per manifest layer, and every layer
before the aligned suffix has `createdBy` unset. -/
theorem claim_C8 (a : Archive) (m : ManifestEntry) (ms : List ManifestEntry)
    (hm : a.manifest = m :: ms)
    (hlt : countNonEmpty (a.configHistory m.Config) < m.Layers.length) :
    ∃ out, getLayersFromImageArchive a = some out ∧
      out.layers.length = m.Layers.length ∧
      ∀ j, j < m.Layers.length - countNonEmpty (a.configHistory m.Config) →
        ∃ l, out.layers[j]? = some l ∧ l.createdBy = none := by
  have hn : (m.Layers.map (buildLayer a)).length = m.Layers.length :=
    List.length_map _ _
  have hk : countNonEmpty (a.configHistory m.Config) ≤
      (m.Layers.map (buildLayer a)).length := by
    rw [hn]; omega
  have hcb : (nonEmptyCreatedBys (a.configHistory m.Config)).length =
      countNonEmpty (a.configHistory m.Config) := List.length_map _ _
  simp only [getLayersFromImageArchive, hm]
  rw [alignHistory_spec _ _ hk, Option.map_some']
  refine ⟨_, rfl, ?_, ?_⟩
  · simp only [List.length_append, List.length_take, List.length_zipWith,
      List.length_drop, hn, hcb]
    omega
  · intro j hj
    have hjtake : j < ((m.Layers.map (buildLayer a)).take
        ((m.Layers.map (buildLayer a)).length -
          countNonEmpty (a.configHistory m.Config))).length := by
      simp only [List.length_take, hn]
      omega
    refine ⟨buildLayer a (m.Layers.get ⟨j, by omega⟩), ?_, rfl⟩
    show (_ ++ _)[j]? = _
    rw [List.getElem?_append, if_pos hjtake, List.getElem?_take,
      if_pos (by rw [hn]; omega), List.getElem?_map,
      List.getElem?_eq_getElem (by omega)]
    rfl

/-- C8 witness: an archive with two layers but a single consuming
history record parses successfully; the first layer has no
`createdBy`. -/
theorem claim_C8_witness :
    ∃ out, getLayersFromImageArchive exampleArchive = some out ∧
      out.layers.length = 2 ∧
      ∀ j, j < 2 - countNonEmpty (exampleArchive.configHistory "config.json") →
        ∃ l, out.layers[j]? = some l ∧ l.createdBy = none := by
  have h := claim_C8 exampleArchive ⟨["aaaabbbbccccdddd", "eeeeffffgggghhhh"], "config.json"⟩
    [] rfl (by decide)
  simpa using h

/-! ## Path computations on well-formed relative paths -/

theorem dropWhile_slash_of_ne (c : Char) (t : List Char) (hc : c ≠ '/') :
    (c :: t).dropWhile (· = '/') = c :: t :=
  List.dropWhile_cons_of_neg (by simpa using hc)

theorem dropWhile_slash_all (l : List Char) (h : ∀ c ∈ l, c ≠ '/') :
    l.dropWhile (· = '/') = l := by
  cases l with
  | nil => rfl
  | cons c t => exact dropWhile_slash_of_ne c t (h c (by simp))

theorem takeWhile_all_ne (l : List Char) (h : ∀ c ∈ l, c ≠ '/') :
    l.takeWhile (· ≠ '/') = l := by
  induction l with
  | nil => rfl
  | cons c t ih =>
    rw [List.takeWhile_cons_of_pos (by simpa using h c (by simp))]
    rw [ih (fun x hx => h x (by simp [hx]))]

theorem dropWhile_all_ne (l : List Char) (h : ∀ c ∈ l, c ≠ '/') :
    l.dropWhile (· ≠ '/') = [] := by
  induction l with
  | nil => rfl
  | cons c t ih =>
    rw [List.dropWhile_cons_of_pos (by simpa using h c (by simp))]
    exact ih (fun x hx => h x (by simp [hx]))

theorem takeWhile_append_slash (a b : List Char) (h : ∀ c ∈ a, c ≠ '/') :
    (a ++ '/' :: b).takeWhile (· ≠ '/') = a := by
  induction a with
  | nil => simp [List.takeWhile_cons]
  | cons c t ih =>
    rw [List.cons_append, List.takeWhile_cons_of_pos (by simpa using h c (by simp))]
    rw [ih (fun x hx => h x (by simp [hx]))]

theorem dropWhile_ne_append_slash (a b : List Char) (h : ∀ c ∈ a, c ≠ '/') :
    (a ++ '/' :: b).dropWhile (· ≠ '/') = '/' :: b := by
  induction a with
  | nil => simp [List.dropWhile_cons]
  | cons c t ih =>
    rw [List.cons_append, List.dropWhile_cons_of_pos (by simpa using h c (by simp))]
    exact ih (fun x hx => h x (by simp [hx]))

theorem reverse_all_ne (s : List Char) (h : '/' ∉ s) : ∀ c ∈ s.reverse, c ≠ '/' := by
  intro c hc heq
  exact h (heq ▸ List.mem_reverse.mp hc)

theorem basenameChars_nosl (s : List Char) (h1 : '/' ∉ s) :
    basenameChars s = s := by
  rw [basenameChars, dropWhile_slash_all _ (reverse_all_ne s h1),
    takeWhile_all_ne _ (reverse_all_ne s h1), List.reverse_reverse]

theorem basenameChars_concat (xs s : List Char) (h1 : '/' ∉ s) (h2 : s ≠ []) :
    basenameChars (xs ++ '/' :: s) = s := by
  have hrev : (xs ++ '/' :: s).reverse = s.reverse ++ '/' :: xs.reverse := by
    rw [List.reverse_append, List.reverse_cons, List.append_assoc,
      List.singleton_append]
  have hsrev : s.reverse ≠ [] := by simpa using h2
  obtain ⟨c, t, hct⟩ := List.exists_cons_of_ne_nil hsrev
  have hc : c ≠ '/' := reverse_all_ne s h1 c (by rw [hct]; simp)
  rw [basenameChars, hrev, hct, List.cons_append,
    dropWhile_slash_of_ne c _ hc, ← List.cons_append, ← hct,
    takeWhile_append_slash _ _ (reverse_all_ne s h1), List.reverse_reverse]

theorem dirnameChars_nosl (s : List Char) (h1 : '/' ∉ s) (h2 : s ≠ []) :
    dirnameChars s = ['.'] := by
  obtain ⟨c, t, rfl⟩ := List.exists_cons_of_ne_nil h2
  have hc : c ≠ '/' := fun h => h1 (h ▸ List.mem_cons_self c t)
  have ht : ∀ x ∈ t.reverse, x ≠ '/' :=
    reverse_all_ne t (fun hx => h1 (List.mem_cons_of_mem c hx))
  rw [dirnameChars]
  simp only [dropWhile_slash_all _ ht, dropWhile_all_ne _ ht, List.isEmpty_nil,
    if_true]
  exact if_neg hc

theorem dirnameChars_concat (c : Char) (t s : List Char) (hc : c ≠ '/')
    (h1 : '/' ∉ s) (h2 : s ≠ []) :
    dirnameChars ((c :: t) ++ '/' :: s) = c :: t := by
  have hrev : (t ++ '/' :: s).reverse = s.reverse ++ '/' :: t.reverse := by
    rw [List.reverse_append, List.reverse_cons, List.append_assoc,
      List.singleton_append]
  have hsrev : s.reverse ≠ [] := by simpa using h2
  obtain ⟨d, u, hdu⟩ := List.exists_cons_of_ne_nil hsrev
  have hd : d ≠ '/' := reverse_all_ne s h1 d (by rw [hdu]; simp)
  rw [List.cons_append, dirnameChars]
  simp only [hrev, hdu, List.cons_append, dropWhile_slash_of_ne d _ hd]
  rw [← List.cons_append, ← hdu,
    dropWhile_ne_append_slash _ _ (reverse_all_ne s h1)]
  simp only [List.isEmpty_cons, Bool.false_eq_true, if_false]
  rw [if_neg (by rintro ⟨h, _⟩; exact hc h)]
  show (c :: (t ++ '/' :: s)).take ('/' :: t.reverse).length = c :: t
  rw [List.length_cons, List.length_reverse, List.take_succ_cons, List.take_left]

theorem joinSegsChars_cons (a : List Char) (l : List (List Char)) (h : l ≠ []) :
    joinSegsChars (a :: l) = a ++ '/' :: joinSegsChars l := by
  cases l with
  | nil => exact absurd rfl h
  | cons b t => rfl

theorem joinSegsChars_concat (ds : List (List Char)) (t : List Char) (h : ds ≠ []) :
    joinSegsChars (ds ++ [t]) = joinSegsChars ds ++ '/' :: t := by
  induction ds with
  | nil => exact absurd rfl h
  | cons d ds' ih =>
    by_cases hds' : ds' = []
    · subst hds'
      rfl
    · rw [List.cons_append, joinSegsChars_cons d (ds' ++ [t]) (by simp [hds']),
        joinSegsChars_cons d ds' hds', ih hds', List.append_assoc]
      simp

theorem splitSlash_nosl (s : List Char) (h : '/' ∉ s) : splitSlash s = [s] := by
  induction s with
  | nil => rfl
  | cons c t ih =>
    have hc : c ≠ '/' := fun hh => h (hh ▸ List.mem_cons_self c t)
    rw [splitSlash, if_neg hc, ih (fun hx => h (List.mem_cons_of_mem c hx))]

theorem splitSlash_append (a b : List Char) (h : '/' ∉ a) :
    splitSlash (a ++ '/' :: b) = a :: splitSlash b := by
  induction a with
  | nil => simp [splitSlash]
  | cons c t ih =>
    have hc : c ≠ '/' := fun hh => h (hh ▸ List.mem_cons_self c t)
    rw [List.cons_append, splitSlash, if_neg hc,
      ih (fun hx => h (List.mem_cons_of_mem c hx))]

theorem splitSlash_joinSegs (gs : List (List Char)) (hne : gs ≠ [])
    (h : ∀ g ∈ gs, '/' ∉ g) : splitSlash (joinSegsChars gs) = gs := by
  induction gs with
  | nil => exact absurd rfl hne
  | cons g gs' ih =>
    by_cases hgs' : gs' = []
    · subst hgs'
      exact splitSlash_nosl g (h g (by simp))
    · rw [joinSegsChars_cons g gs' hgs',
        splitSlash_append _ _ (h g (by simp)),
        ih hgs' (fun x hx => h x (by simp [hx]))]

theorem normStep_good (b : Bool) (acc : List (List Char)) (g : List Char)
    (hg : goodSegChars g) : normStep b acc g = acc ++ [g] := by
  obtain ⟨h1, _, h3, h4⟩ := hg
  rw [normStep, if_neg (by rintro (h | h) <;> [exact h1 h; exact h3 h]), if_neg h4]

theorem foldl_normStep_good (b : Bool) (gs : List (List Char))
    (h : ∀ g ∈ gs, goodSegChars g) :
    ∀ acc, gs.foldl (normStep b) acc = acc ++ gs := by
  induction gs with
  | nil => intro acc; simp
  | cons g gs' ih =>
    intro acc
    rw [List.foldl_cons, normStep_good b acc g (h g (by simp)),
      ih (fun x hx => h x (by simp [hx])), List.append_assoc, List.singleton_append]

theorem joinSegsChars_ne_nil (gs : List (List Char)) (hne : gs ≠ [])
    (h : ∀ g ∈ gs, g ≠ []) : joinSegsChars gs ≠ [] := by
  cases gs with
  | nil => exact absurd rfl hne
  | cons g gs' =>
    by_cases hgs' : gs' = []
    · subst hgs'
      exact h g (by simp)
    · rw [joinSegsChars_cons g gs' hgs']
      intro hcontra
      exact h g (by simp) (List.append_eq_nil.mp hcontra).1

theorem head?_append_of_ne_nil (a b : List Char) (h : a ≠ []) :
    (a ++ b).head? = a.head? := by
  cases a with
  | nil => exact absurd rfl h
  | cons c t => rfl

theorem joinSegsChars_head? (g : List Char) (gs : List (List Char)) (hg : g ≠ []) :
    (joinSegsChars (g :: gs)).head? = g.head? := by
  cases gs with
  | nil => rfl
  | cons e es =>
    rw [joinSegsChars_cons g (e :: es) (by simp), head?_append_of_ne_nil _ _ hg]

theorem getLast?_cons_of_ne_nil (c : Char) (s : List Char) (h : s ≠ []) :
    (c :: s).getLast? = s.getLast? := by
  cases s with
  | nil => exact absurd rfl h
  | cons d t => exact List.getLast?_cons_cons

theorem getLast?_append_cons (a : List Char) (c : Char) (b : List Char) :
    (a ++ c :: b).getLast? = (c :: b).getLast? := by
  induction a with
  | nil => rfl
  | cons d t ih =>
    rw [List.cons_append, getLast?_cons_of_ne_nil d _ (by simp), ih]

theorem getLast?_ne_slash (s : List Char) (h1 : '/' ∉ s) :
    s.getLast? ≠ some '/' := by
  intro hcontra
  exact h1 (List.mem_of_mem_getLast? hcontra)

theorem joinSegsChars_getLast? (ds : List (List Char)) (s : List Char) (hs : s ≠ []) :
    (joinSegsChars (ds ++ [s])).getLast? = s.getLast? := by
  cases hds : ds with
  | nil => rfl
  | cons d ds' =>
    rw [← hds, joinSegsChars_concat ds s (by simp [hds]), getLast?_append_cons,
      getLast?_cons_of_ne_nil _ _ hs]

theorem normalizeChars_joinSegs (gs : List (List Char)) (hne : gs ≠ [])
    (h : ∀ g ∈ gs, goodSegChars g) :
    normalizeChars (joinSegsChars gs) = joinSegsChars gs := by
  have hnn : joinSegsChars gs ≠ [] :=
    joinSegsChars_ne_nil gs hne (fun g hg => (h g hg).1)
  obtain ⟨g, gs', rfl⟩ := List.exists_cons_of_ne_nil hne
  have hg := h g (by simp)
  obtain ⟨c, t, hct⟩ := List.exists_cons_of_ne_nil hg.1
  have hc : c ≠ '/' := fun hh => hg.2.1 (by rw [hct, hh]; simp)
  have hhead : (joinSegsChars (g :: gs')).head? = some c := by
    rw [joinSegsChars_head? g gs' hg.1, hct]
    rfl
  have hlast : (joinSegsChars (g :: gs')).getLast? ≠ some '/' := by
    obtain ⟨ds, s, hds⟩ : ∃ ds s, g :: gs' = ds ++ [s] :=
      ⟨(g :: gs').dropLast, (g :: gs').getLast (by simp),
        (List.dropLast_append_getLast (by simp)).symm⟩
    have hsmem : s ∈ g :: gs' := by rw [hds]; simp
    rw [hds, joinSegsChars_getLast? ds s (h s hsmem).1]
    exact getLast?_ne_slash s (h s hsmem).2.1
  rw [normalizeChars, if_neg hnn]
  simp only [hhead]
  have hisAbs : decide (some c = some '/') = false :=
    decide_eq_false (by simpa using hc)
  rw [hisAbs]
  rw [splitSlash_joinSegs (g :: gs') (by simp) (fun x hx => (h x hx).2.1)]
  rw [foldl_normStep_good _ _ h []]
  rw [List.nil_append, if_neg hnn, if_neg hlast,
    if_neg (show ¬ (some c = some '/') by simpa using hc)]
  simp

theorem string_mk_ne_empty (t : List Char) (h : t ≠ []) : (⟨t⟩ : String) ≠ "" := by
  intro hcontra
  exact h (congrArg String.data hcontra)

theorem normalizeChars_dot_joinSegs (gs : List (List Char)) (hne : gs ≠ [])
    (h : ∀ g ∈ gs, goodSegChars g) :
    normalizeChars (joinSegsChars (['.'] :: gs)) = joinSegsChars gs := by
  have hgood : joinSegsChars gs ≠ [] :=
    joinSegsChars_ne_nil gs hne (fun g hg => (h g hg).1)
  have hcs : joinSegsChars (['.'] :: gs) = '.' :: '/' :: joinSegsChars gs :=
    joinSegsChars_cons ['.'] gs hne
  have hlast : ('.' :: '/' :: joinSegsChars gs).getLast? ≠ some '/' := by
    obtain ⟨ds, s, hds⟩ : ∃ ds s, gs = ds ++ [s] :=
      ⟨gs.dropLast, gs.getLast hne, (List.dropLast_append_getLast hne).symm⟩
    have hsmem : s ∈ gs := by rw [hds]; simp
    rw [← hcs]
    have hrw : joinSegsChars (['.'] :: gs) = joinSegsChars ((['.'] :: ds) ++ [s]) := by
      rw [hds]
      rfl
    rw [hrw, joinSegsChars_getLast? (['.'] :: ds) s (h s hsmem).1]
    exact getLast?_ne_slash s (h s hsmem).2.1
  have hsplit : splitSlash ('.' :: '/' :: joinSegsChars gs) = ['.'] :: gs := by
    have heq : ('.' :: '/' :: joinSegsChars gs) = ['.'] ++ '/' :: joinSegsChars gs := rfl
    rw [heq, splitSlash_append ['.'] _ (by simp),
      splitSlash_joinSegs gs hne (fun x hx => (h x hx).2.1)]
  rw [hcs, normalizeChars, if_neg (by simp)]
  simp only [List.head?_cons]
  have hisAbs : (decide (some '.' = some '/')) = false := by decide
  rw [hisAbs, hsplit]
  have hfold : List.foldl (normStep (!false)) [] (['.'] :: gs) = gs := by
    rw [List.foldl_cons]
    have hstep : normStep (!false) [] ['.'] = [] := rfl
    rw [hstep, foldl_normStep_good _ gs h [], List.nil_append]
  rw [hfold, if_neg hgood, if_neg hlast,
    if_neg (show ¬ (some '.' = some '/') by decide)]
  simp

theorem nodeJoin_dot (t : List Char) (ht : goodSegChars t) :
    nodeJoin "." ⟨t⟩ = ⟨t⟩ := by
  rw [nodeJoin]
  have hfilter : ([".", ⟨t⟩] : List String).filter (· ≠ "") = [".", ⟨t⟩] := by
    rw [List.filter_cons_of_pos (by simp), List.filter_cons_of_pos
      (by simpa using string_mk_ne_empty t ht.1), List.filter_nil]
  simp only [hfilter]
  rw [if_neg (by simp)]
  show (⟨normalizeChars (joinSegsChars [['.'], t])⟩ : String) = ⟨t⟩
  rw [normalizeChars_dot_joinSegs [t] (by simp) (by simpa using ht)]
  rfl

theorem nodeJoin_segs (ds : List (List Char)) (t : List Char) (hne : ds ≠ [])
    (hd : ∀ d ∈ ds, goodSegChars d) (ht : goodSegChars t) :
    nodeJoin ⟨joinSegsChars ds⟩ ⟨t⟩ = ⟨joinSegsChars (ds ++ [t])⟩ := by
  have hJne : joinSegsChars ds ≠ [] :=
    joinSegsChars_ne_nil ds hne (fun g hg => (hd g hg).1)
  rw [nodeJoin]
  have hfilter : ([⟨joinSegsChars ds⟩, ⟨t⟩] : List String).filter (· ≠ "") =
      [⟨joinSegsChars ds⟩, ⟨t⟩] := by
    rw [List.filter_cons_of_pos (by simpa using string_mk_ne_empty _ hJne),
      List.filter_cons_of_pos (by simpa using string_mk_ne_empty t ht.1),
      List.filter_nil]
  simp only [hfilter]
  rw [if_neg (by simp)]
  show (⟨normalizeChars (joinSegsChars [joinSegsChars ds, t])⟩ : String) = _
  have hjoin : joinSegsChars [joinSegsChars ds, t] = joinSegsChars (ds ++ [t]) := by
    show joinSegsChars ds ++ '/' :: t = _
    rw [joinSegsChars_concat ds t hne]
  rw [hjoin, normalizeChars_joinSegs (ds ++ [t]) (by simp)
    (by intro g hg
        rcases List.mem_append.mp hg with h | h
        · exact hd g h
        · simp only [List.mem_singleton] at h
          exact h ▸ ht)]

theorem isPrefixOf_append_self (a b : List Char) : a.isPrefixOf (a ++ b) = true := by
  induction a with
  | nil => simp [List.isPrefixOf]
  | cons c t ih => simp [List.isPrefixOf, ih]

theorem dirnameChars_joinSegs_concat (ds : List (List Char)) (s : List Char)
    (hne : ds ≠ []) (hd : ∀ d ∈ ds, goodSegChars d)
    (h1 : '/' ∉ s) (h2 : s ≠ []) :
    dirnameChars (joinSegsChars ds ++ '/' :: s) = joinSegsChars ds := by
  obtain ⟨c, t', hJ⟩ := List.exists_cons_of_ne_nil
    (joinSegsChars_ne_nil ds hne (fun g hg => (hd g hg).1))
  obtain ⟨d1, rest, rfl⟩ := List.exists_cons_of_ne_nil hne
  have hd1 := hd d1 (by simp)
  obtain ⟨c1, t1, hct⟩ := List.exists_cons_of_ne_nil hd1.1
  have hc1 : c1 ≠ '/' := fun hh => hd1.2.1 (by rw [hct, hh]; simp)
  have hhead : (joinSegsChars (d1 :: rest)).head? = some c1 := by
    rw [joinSegsChars_head? d1 rest hd1.1, hct]
    rfl
  have hcc : c = c1 := by
    rw [hJ] at hhead
    simpa using hhead
  rw [hJ, dirnameChars_concat c t' s (hcc ▸ hc1) h1 h2]

/-- C4: classification of whiteout markers.  Over a well-formed relative
entry path (slash-separated normal segments), (a) when the final
segment is `.wh.` followed by a normal name and is not the opaque
marker, the entry is classified as `Whiteout{hiddenPath}` where the
hidden path's final segment is the name with the `.wh.` prefix stripped
and its parent directory equals the entry path's parent directory
unchanged; (b) when the final segment is exactly `.wh..wh..opq`, the
entry is classified as `OpaqueWhiteout{parent directory}` and never as
a plain `Whiteout`. -/
theorem claim_C4 (e : TarEntry) (dirSegs : List (List Char)) (s t : List Char)
    (hp : e.path.data = joinSegsChars (dirSegs ++ [s]))
    (hd : ∀ d ∈ dirSegs, goodSegChars d)
    (hs : goodSegChars s) :
    ((s = whiteoutMarker ++ t ∧ s ≠ opaqueMarker ∧ goodSegChars t) →
      classifyEntry e = .whiteout (nodeJoin (nodeDirname e.path) ⟨t⟩) ∧
      (nodeBasename (nodeJoin (nodeDirname e.path) ⟨t⟩)).data = t ∧
      nodeDirname (nodeJoin (nodeDirname e.path) ⟨t⟩) = nodeDirname e.path) ∧
    (s = opaqueMarker →
      classifyEntry e = .opaqueWhiteout (nodeDirname e.path) ∧
      ∀ q, classifyEntry e ≠ .whiteout q) := by
  have hsne := hs.1
  have hsl := hs.2.1
  have hbase : basenameChars e.path.data = s := by
    by_cases hds : dirSegs = []
    · subst hds
      rw [hp]
      exact basenameChars_nosl s hsl
    · rw [hp, joinSegsChars_concat dirSegs s hds]
      exact basenameChars_concat _ s hsl hsne
  constructor
  · rintro ⟨hw, hno, ht⟩
    have hdrop : s.drop 4 = t := by rw [hw]; rfl
    have hwo : isWhiteout e.path = true := by
      rw [isWhiteout, hbase, hw]
      exact isPrefixOf_append_self whiteoutMarker t
    have hop : isOpaqueWhiteout e.path = false := by
      simp only [isOpaqueWhiteout, hbase]
      exact decide_eq_false hno
    have hhid : getHiddenFile e.path =
        some (nodeJoin (nodeDirname e.path) ⟨t⟩) := by
      rw [getHiddenFile, if_pos hwo, hbase, hdrop]
    have hcl : classifyEntry e = .whiteout (nodeJoin (nodeDirname e.path) ⟨t⟩) := by
      rw [classifyEntry, if_pos hwo, if_neg (by simp [hop]), hhid]
      rfl
    refine ⟨hcl, ?_, ?_⟩
    · -- final segment of the hidden path is the stripped name
      by_cases hds : dirSegs = []
      · subst hds
        have hdot : nodeDirname e.path = "." := by
          rw [nodeDirname, hp]
          show (⟨dirnameChars s⟩ : String) = "."
          rw [dirnameChars_nosl s hsl hsne]
        rw [hdot, nodeJoin_dot t ht, nodeBasename,
          basenameChars_nosl t ht.2.1]
      · have hdircons : nodeDirname e.path = ⟨joinSegsChars dirSegs⟩ := by
          rw [nodeDirname, hp, joinSegsChars_concat dirSegs s hds,
            dirnameChars_joinSegs_concat dirSegs s hds hd hsl hsne]
        rw [hdircons, nodeJoin_segs dirSegs t hds hd ht, nodeBasename,
          joinSegsChars_concat dirSegs t hds,
          basenameChars_concat _ t ht.2.1 ht.1]
    · -- parent directory of the hidden path equals the entry's parent
      by_cases hds : dirSegs = []
      · subst hds
        have hdot : nodeDirname e.path = "." := by
          rw [nodeDirname, hp]
          show (⟨dirnameChars s⟩ : String) = "."
          rw [dirnameChars_nosl s hsl hsne]
        rw [hdot, nodeJoin_dot t ht, nodeDirname,
          dirnameChars_nosl t ht.2.1 ht.1]
      · have hdircons : nodeDirname e.path = ⟨joinSegsChars dirSegs⟩ := by
          rw [nodeDirname, hp, joinSegsChars_concat dirSegs s hds,
            dirnameChars_joinSegs_concat dirSegs s hds hd hsl hsne]
        rw [hdircons, nodeJoin_segs dirSegs t hds hd ht, nodeDirname]
        show (⟨dirnameChars (joinSegsChars (dirSegs ++ [t]))⟩ : String) = _
        rw [joinSegsChars_concat dirSegs t hds,
          dirnameChars_joinSegs_concat dirSegs t hds hd ht.2.1 ht.1]
  · intro hw
    have hwo : isWhiteout e.path = true := by
      rw [isWhiteout, hbase, hw]
      decide
    have hopq : isOpaqueWhiteout e.path = true := by
      simp only [isOpaqueWhiteout, hbase, hw]
      decide
    have hcl : classifyEntry e = .opaqueWhiteout (nodeDirname e.path) := by
      rw [classifyEntry, if_pos hwo, if_pos hopq]
    exact ⟨hcl, fun q hq => FsEntry.noConfusion (hcl ▸ hq)⟩

/-- C4 witness: a plain whiteout entry `dir/sub/.wh.file` is classified
as hiding `dir/sub/file`; an opaque marker `dir2/.wh..wh..opq` is
classified as an opaque whiteout of `dir2`. -/
theorem claim_C4_witness :
    classifyEntry ⟨"dir/sub/.wh.file", "File", some 420, 3, none⟩ =
      .whiteout "dir/sub/file" ∧
    classifyEntry ⟨"dir2/.wh..wh..opq", "File", none, 0, none⟩ =
      .opaqueWhiteout "dir2" := by
  constructor
  · have h := (claim_C4 ⟨"dir/sub/.wh.file", "File", some 420, 3, none⟩
      ["dir".data, "sub".data] ".wh.file".data "file".data
      (by decide) (by decide) (by decide)).1 ⟨by decide, by decide, by decide⟩
    exact h.1.trans (by decide)
  · have h := (claim_C4 ⟨"dir2/.wh..wh..opq", "File", none, 0, none⟩
      ["dir2".data] ".wh..wh..opq".data [] (by decide) (by decide) (by decide)).2
      (by decide)
    exact h.1.trans (by decide)

end LayersExplorer
